import Mathlib

/-!
# Verification of EasyAliasNG (EasyAliasNG.FCMacro.py)

A shallow embedding of the core logic of the EasyAliasNG FreeCAD macro:

* the A1-notation coordinate codec `a1_to_rowcol` / `rowcol_to_a1`
  (bijective base-26 column letters, decimal row);
* the alias derivation `textToAlias` (parenthesized manual override via
  `CUSTOM_ALIAS_RE`, else the fixed `REPLACEMENTS` substitution table);
* the error-classifying wrapper `set_alias_with_diagnostics`;
* the selection resolution (`iter_selected_spreadsheet_cells`,
  `getSpreadsheets`) and the `process_cell` / `main` control flow.

Python strings are embedded as `String` / `List Char`; Python's unbounded
nonnegative integers as `Nat` (as `Int` where the source may see negative
values); a fallible step returns `Option` / `Except`.  Host collaborators
(the spreadsheet object, GUI selection, message boxes) are explicit inputs,
and a message box becomes a returned `Notification` value.
-/

/-! ## Character helpers

The regex character classes `[A-Za-z]`, `[0-9]`, `[1-9]` of
`CELL_ADDR_RE = ([A-Za-z]+)([1-9]\d*)`, and Python's `str.upper` /
`str.lower` (restricted to ASCII, the only characters those regex groups and
the searched keywords contain). -/

/-- `chr`/`ord` bookkeeping: `(Char.ofNat n).toNat = n` for code points below
the surrogate range (every character in this development is ASCII). -/
theorem char_toNat_ofNat (n : Nat) (h : n < 55296) : (Char.ofNat n).toNat = n := by
  have hv : n < 55296 ∨ 57343 < n ∧ n < 1114112 := Or.inl h
  simp only [Char.ofNat, dif_pos hv, Char.ofNatAux, Char.toNat]
  rfl

/-- The regex class `[A-Za-z]`. -/
def isAsciiLetter (c : Char) : Bool :=
  decide ((65 ≤ c.toNat ∧ c.toNat ≤ 90) ∨ (97 ≤ c.toNat ∧ c.toNat ≤ 122))

/-- The regex class `[0-9]` (`\d`). -/
def isDigitChar (c : Char) : Bool :=
  decide (48 ≤ c.toNat ∧ c.toNat ≤ 57)

/-- The regex class `[1-9]`. -/
def isNonzeroDigitChar (c : Char) : Bool :=
  decide (49 ≤ c.toNat ∧ c.toNat ≤ 57)

/-- Python `str.upper` on a single character (ASCII range; the source only
uppercases strings matched by `[A-Za-z]+`). -/
def pyUpper (c : Char) : Char :=
  if 97 ≤ c.toNat ∧ c.toNat ≤ 122 then Char.ofNat (c.toNat - 32) else c

/-- Python `str.lower` on a single character (ASCII range; the source only
lowercases host error messages to search for ASCII keywords). -/
def pyLower (c : Char) : Char :=
  if 65 ≤ c.toNat ∧ c.toNat ≤ 90 then Char.ofNat (c.toNat + 32) else c

/-- Python `str.lower` on a whole string. -/
def pyStrLower (s : String) : String := ⟨s.data.map pyLower⟩

/-! ## CELL_ADDR_RE

`CELL_ADDR_RE = re.compile(r"([A-Za-z]+)([1-9]\d*)")`, used with `.match`,
which anchors at the START of the string only.  With this pattern, `.match`
succeeds iff the maximal leading run of letters is nonempty and is followed
by a digit `1`-`9`; group 1 is that letter run, group 2 the maximal digit
run after it (a shorter letter run cannot be chosen by backtracking, since
the character after it would be a letter, not a digit).  Trailing characters
after group 2 are ignored by `.match`. -/

def cellAddrMatch (s : List Char) : Option (List Char × List Char) :=
  let letters := s.takeWhile isAsciiLetter
  let rest := s.dropWhile isAsciiLetter
  match rest with
  | [] => none
  | d :: _ =>
    if letters.isEmpty then none
    else if isNonzeroDigitChar d then some (letters, rest.takeWhile isDigitChar)
    else none

/-! ## a1_to_rowcol -/

/-- `MAGIC_NUMBER = 64` (`ord('A') - 1`). -/
def MAGIC_NUMBER : Nat := 64

/-- One letter's value in the column computation: `ord(c) - MAGIC_NUMBER`
where `c` is a character of `match.group(1).upper()`. -/
def letterVal (c : Char) : Nat := (pyUpper c).toNat - MAGIC_NUMBER

/-- The loop `for i, c in enumerate(reversed(column_label)):
column += (ord(c) - MAGIC_NUMBER) * (26**i)`, with `i` the running index
into the reversed label. -/
def lettersToColAux : Nat → List Char → Nat
  | _, [] => 0
  | i, c :: cs => letterVal c * 26 ^ i + lettersToColAux (i + 1) cs

/-- The column computed by `a1_to_rowcol` from `match.group(1)`. -/
def lettersToCol (l : List Char) : Nat := lettersToColAux 0 l.reverse

/-- Python `int` applied to a digit string (`int(match.group(2))`). -/
def digitsToNat (l : List Char) : Nat :=
  l.foldl (fun a c => a * 10 + (c.toNat - 48)) 0

/-- `a1_to_rowcol(label)`: `CELL_ADDR_RE.match(label)`, row from group 2,
column from group 1 in bijective base 26.  `none` models the uncaught
`AttributeError` raised by `match.group(2)` when the match fails. -/
def a1_to_rowcol (label : String) : Option (Nat × Nat) :=
  match cellAddrMatch label.data with
  | none => none
  | some (letters, digits) => some (digitsToNat digits, lettersToCol letters)

/-! ## rowcol_to_a1 -/

/-- Fuel-driven implementation of the `while dividend:` loop of
`rowcol_to_a1` (structural recursion so that the kernel can evaluate it;
the fuel is sufficient whenever `dividend ≤ fuel`, see
`colLettersAux_congr`). -/
def colLettersAux : Nat → Nat → List Char
  | _, 0 => []
  | 0, _ + 1 => []
  | fuel + 1, d + 1 =>
    if (d + 1) % 26 = 0 then
      colLettersAux fuel ((d + 1) / 26 - 1) ++ [Char.ofNat (26 + MAGIC_NUMBER)]
    else
      colLettersAux fuel ((d + 1) / 26) ++ [Char.ofNat ((d + 1) % 26 + MAGIC_NUMBER)]

/-- The `while dividend:` loop of `rowcol_to_a1` for a nonnegative dividend:
`(dividend, mod) = divmod(dividend, 26)`; a zero remainder is adjusted to 26
with the quotient decremented; `chr(mod + MAGIC_NUMBER)` is prepended. -/
def colLetters (d : Nat) : List Char := colLettersAux d d

/-- Decimal digit character: `chr(m + 48)` for `m < 10`. -/
def digitChar (m : Nat) : Char := Char.ofNat (m + 48)

/-- Fuel-driven decimal-digit recursion (see `natReprCore_congr`). -/
def natReprCore : Nat → Nat → List Char
  | _, 0 => []
  | 0, _ + 1 => []
  | fuel + 1, n + 1 =>
    natReprCore fuel ((n + 1) / 10) ++ [digitChar ((n + 1) % 10)]

/-- Decimal representation of a positive natural, empty for `0`
(the recursion underlying Python's `str` on a nonnegative `int`). -/
def natReprAux (n : Nat) : List Char := natReprCore n n

/-- Python `str` on a nonnegative `int`. -/
def natRepr (n : Nat) : List Char := if n = 0 then ['0'] else natReprAux n

/-- Python `str` on an `int` (a leading `-` for negative values). -/
def pyIntRepr (i : Int) : List Char :=
  if i < 0 then '-' :: natRepr i.natAbs else natRepr i.toNat

/-- `rowcol_to_a1(row, column)`: the column-letter loop followed by
`"{}{}".format(column_label, row)`.  The source performs NO validation of
`row` or `column`.  For `column < 0`, `divmod` keeps returning a negative
quotient that eventually sticks at `-1` (`divmod(-1, 26) == (-1, 25)`), so
the `while dividend:` loop never terminates; this is modelled as `none`.
For `column == 0` the loop body never runs and the bare row digits are
returned. -/
def rowcol_to_a1 (row column : Int) : Option String :=
  if column < 0 then none
  else some ⟨colLetters column.toNat ++ pyIntRepr row⟩

/-! ## CUSTOM_ALIAS_RE and textToAlias

`CUSTOM_ALIAS_RE = re.compile(r".*\((.*)\)")`, used with `.match`.  `.`
matches any character EXCEPT a newline, so the whole match lies inside the
first line of the text.  With every quantifier greedy, the match succeeds
iff the first line contains a `(` with a `)` somewhere after it, and group 1
is the content between the last `(` preceding the last `)` of the first
line and that last `)`. -/

/-- `lastSplit c l = some (pre, post)` iff `l = pre ++ c :: post` with `c`
not occurring in `post` (the split at the LAST occurrence of `c`). -/
def lastSplit (c : Char) : List Char → Option (List Char × List Char)
  | [] => none
  | x :: xs =>
    match lastSplit c xs with
    | some (pre, post) => some (x :: pre, post)
    | none => if x = c then some ([], xs) else none

/-- The prefix of the text reachable by `.` in the anchored match: everything
before the first newline. -/
def firstLine (s : List Char) : List Char := s.takeWhile (fun c => c != '\n')

/-- `CUSTOM_ALIAS_RE.match(text)`: `some content` is group 1 of a successful
match (see the section comment for why this computes the regex's group). -/
def customAliasMatch (s : List Char) : Option (List Char) :=
  match lastSplit ')' (firstLine s) with
  | none => none
  | some (pre, _) =>
    match lastSplit '(' pre with
    | none => none
    | some (_, content) => some content

/-- Python `text.replace(c, r)` for a single-character needle `c`. -/
def replaceChar (c : Char) (r : List Char) : List Char → List Char
  | [] => []
  | x :: xs => if x = c then r ++ replaceChar c r xs else x :: replaceChar c r xs

/-- The loop `for character in REPLACEMENTS: text = text.replace(...)`,
in the dictionary's insertion order: `" "`, `"."`, `"ä"`, `"ö"`, `"ü"`,
`"Ä"`, `"Ö"`, `"Ü"`, `"ß"`, then the apostrophe (`Char.ofNat 39`). -/
def applyReplacements (l : List Char) : List Char :=
  replaceChar (Char.ofNat 39) []
    (replaceChar 'ß' ['s', 's']
      (replaceChar 'Ü' ['U', 'e']
        (replaceChar 'Ö' ['O', 'e']
          (replaceChar 'Ä' ['A', 'e']
            (replaceChar 'ü' ['u', 'e']
              (replaceChar 'ö' ['o', 'e']
                (replaceChar 'ä' ['a', 'e']
                  (replaceChar '.' ['_']
                    (replaceChar ' ' ['_'] l)))))))))

/-- `textToAlias(text)`: the parenthesized manual override if
`CUSTOM_ALIAS_RE` matches, otherwise the `REPLACEMENTS` substitutions. -/
def textToAlias (text : String) : String :=
  match customAliasMatch text.data with
  | some content => ⟨content⟩
  | none => ⟨applyReplacements text.data⟩

/-- Modelled from the spec (§4.2): the substitution table as a single
character-wise map, used to state what `applyReplacements` computes
independently of the sequential-replacement mechanism. -/
def specSubst (c : Char) : List Char :=
  if c = ' ' then ['_']
  else if c = '.' then ['_']
  else if c = 'ä' then ['a', 'e']
  else if c = 'ö' then ['o', 'e']
  else if c = 'ü' then ['u', 'e']
  else if c = 'Ä' then ['A', 'e']
  else if c = 'Ö' then ['O', 'e']
  else if c = 'Ü' then ['U', 'e']
  else if c = 'ß' then ['s', 's']
  else if c = Char.ofNat 39 then []
  else [c]

/-! ## set_alias_with_diagnostics

The host's `spreadsheet.setAlias(nextCell, alias)` either succeeds or raises
an exception; its outcome is embedded as `Option String` (`none` = success,
`some msg` = the exception's message `str(e)`).  A `QtGui.QMessageBox`
call is embedded as a returned `Notification` value. -/

/-- The two message-box severities used by the macro
(`QMessageBox.critical` / `QMessageBox.warning`). -/
inductive Severity where
  | critical
  | warning
deriving DecidableEq

/-- One message box shown to the user: severity, window title, body text. -/
structure Notification where
  severity : Severity
  title : String
  text : String
deriving DecidableEq

/-- Python `needle in hay` on strings (contiguous substring test). -/
def strContains (hay needle : List Char) : Bool :=
  match hay with
  | [] => needle.isEmpty
  | _ :: t => needle.isPrefixOf hay || strContains t needle

/-- The message shown for the invalid-characters branch (the `.format`
template of lines 83-91 of the source, already instantiated). -/
def invalidAliasText (aliasStr cell sheet msg : String) : String :=
  "Unable to set alias <i>" ++ aliasStr ++ "</i> at cell " ++ cell ++
  " in spreadsheet <i>" ++ sheet ++
  "</i>.<br><br><b>Reason:</b> The alias contains invalid characters." ++
  "<br>Aliases must start with a letter and may only contain " ++
  "letters, digits and underscores." ++
  "<br><br><small>FreeCAD message: " ++ msg ++ "</small>"

/-- The message shown for the duplicate-alias branch (lines 98-105). -/
def duplicateAliasText (aliasStr cell sheet msg : String) : String :=
  "Unable to set alias <i>" ++ aliasStr ++ "</i> at cell " ++ cell ++
  " in spreadsheet <i>" ++ sheet ++
  "</i>.<br><br><b>Reason:</b> This alias is already used elsewhere " ++
  "in this spreadsheet and must be unique." ++
  "<br><br><small>FreeCAD message: " ++ msg ++ "</small>"

/-- The message shown for the fallback branch (lines 111-117). -/
def genericAliasText (aliasStr cell sheet msg : String) : String :=
  "Unable to set alias <i>" ++ aliasStr ++ "</i> at cell " ++ cell ++
  " in spreadsheet <i>" ++ sheet ++
  "</i>.<br><br><b>Reason:</b> An unexpected error occurred." ++
  "<br><br><small>FreeCAD message: " ++ msg ++ "</small>"

/-- `set_alias_with_diagnostics(spreadsheet, nextCell, alias)`:
`setAliasResult` is the outcome of the host call; on failure the lowercased
message is searched for the keyword heuristics and one message box is
produced.  Returns (the function's return value, the notification shown). -/
def set_alias_with_diagnostics (setAliasResult : Option String)
    (sheetFullName nextCell aliasStr : String) : Bool × Option Notification :=
  match setAliasResult with
  | none => (true, none)
  | some msg =>
    let msgLower := pyStrLower msg
    if strContains msgLower.data "invalid".data &&
       strContains msgLower.data "character".data then
      (false, some ⟨.critical, "Invalid alias",
        invalidAliasText aliasStr nextCell sheetFullName msg⟩)
    else if strContains msgLower.data "already in use".data ||
            strContains msgLower.data "already defined".data ||
            strContains msgLower.data "duplicate".data then
      (false, some ⟨.warning, "Duplicate alias",
        duplicateAliasText aliasStr nextCell sheetFullName msg⟩)
    else
      (false, some ⟨.critical, "Alias error",
        genericAliasText aliasStr nextCell sheetFullName msg⟩)

/-! ## Host objects, selection resolution, process_cell and main

A FreeCAD document object is embedded as `HObj` (its `TypeId`, an identity
number standing for Python object identity, and its `LinkedObject` when it
is an `App::Link`; `linked = none` for objects without one — the macro only
reads `LinkedObject` after checking `TypeId == "App::Link"`, and a link
whose `LinkedObject` attribute were missing would be a host-contract
violation, modelled here as the object simply not resolving to a sheet).
The remaining host services are functions keyed by the sheet's identity. -/

inductive HObj where
  | mk (typeId : String) (oid : Nat) (linked : Option HObj)

/-- `obj.TypeId`. -/
def HObj.typeId : HObj → String
  | .mk t _ _ => t

/-- Object identity (Python `id`, used for `set` membership). -/
def HObj.oid : HObj → Nat
  | .mk _ i _ => i

/-- `obj.LinkedObject`. -/
def HObj.linked : HObj → Option HObj
  | .mk _ _ l => l

/-- The host collaborator: GUI selection as the macro queries it, plus the
per-sheet services, keyed by sheet identity.  `setAlias` returns `none` on
success and `some msg` when the host raises with message `msg`. -/
structure Host where
  selEx : List (HObj × List String)
  sel : List HObj
  viewCells : Nat → List String
  contents : Nat → String → String
  fullName : Nat → String
  setAlias : Nat → String → String → Option String

/-- `set.add` on a Python set of document objects: membership is object
identity.  (The set is modelled as a deduplicated list; no claim proved
here depends on the set's iteration order.) -/
def addToSet (l : List HObj) (o : HObj) : List HObj :=
  if l.any (fun x => x.oid == o.oid) then l else l ++ [o]

/-- `getSpreadsheets()`: selected spreadsheets (following one `App::Link`
dereference) collected into a set. -/
def getSpreadsheets (sel : List HObj) : List HObj :=
  sel.foldl
    (fun acc o =>
      if o.typeId = "Spreadsheet::Sheet" then addToSet acc o
      else if o.typeId = "App::Link" then
        match o.linked with
        | some l => if l.typeId = "Spreadsheet::Sheet" then addToSet acc l else acc
        | none => acc
      else acc)
    []

/-- `iter_selected_spreadsheet_cells()`: for each extended-selection entry,
dereference a link, keep sheets, and keep the sub-element names that
`CELL_ADDR_RE.match` accepts. -/
def iter_selected_spreadsheet_cells (selEx : List (HObj × List String)) :
    List (HObj × String) :=
  selEx.foldl
    (fun acc p =>
      let obj := if p.1.typeId = "App::Link" then p.1.linked.getD p.1 else p.1
      if obj.typeId = "Spreadsheet::Sheet" then
        acc ++ (p.2.filter (fun s => (cellAddrMatch s.data).isSome)).map
          (fun s => (obj, s))
      else acc)
    []

/-- The record of one attempted host `setAlias` call made by
`process_cell`: target cell, alias, the wrapper's return value, and the
notification it showed (if any). -/
structure AttemptRec where
  target : String
  aliasStr : String
  ok : Bool
  notif : Option Notification
deriving DecidableEq

/-- `process_cell(spreadsheet, selectedCell)`: read the contents (empty ⇒
no-op), derive the alias, decode the label, encode the cell one column to
the right, and try to set the alias there.  `.error ()` models an uncaught
exception escaping `process_cell` (a failed `CELL_ADDR_RE` match);
`.ok none` the empty-contents no-op; `.ok (some r)` a completed attempt. -/
def process_cell_run (h : Host) (oid : Nat) (selectedCell : String) :
    Except Unit (Option AttemptRec) :=
  let contents := h.contents oid selectedCell
  if contents = "" then .ok none
  else
    match a1_to_rowcol selectedCell with
    | none => .error ()
    | some (row, column) =>
      match rowcol_to_a1 (row : Int) ((column : Int) + 1) with
      | none => .error ()
      | some nextCell =>
        let aliasStr := textToAlias contents
        let r := set_alias_with_diagnostics (h.setAlias oid nextCell aliasStr)
          (h.fullName oid) nextCell aliasStr
        .ok (some ⟨nextCell, aliasStr, r.1, r.2⟩)

/-- What one entry contributes to the processing trace (`none` when the
entry makes no `setAlias` attempt).  A function of the single entry only. -/
def runRec (h : Host) (e : Nat × String) : Option AttemptRec :=
  match process_cell_run h e.1 e.2 with
  | .ok r => r
  | .error _ => none

/-- The loop `for spreadsheet, selectedCell in ...: process_cell(...)`:
the trace of attempts made, and whether the loop ran to completion
(`false` = an uncaught exception aborted it, discarding the rest). -/
def processAll (h : Host) : List (Nat × String) → List AttemptRec × Bool
  | [] => ([], true)
  | e :: rest =>
    match process_cell_run h e.1 e.2 with
    | .error _ => ([], false)
    | .ok none => processAll h rest
    | .ok (some r) =>
      let p := processAll h rest
      (r :: p.1, p.2)

/-- The entries strategy 1 (direct cell selection) hands to the loop. -/
def strategy1Entries (h : Host) : List (Nat × String) :=
  (iter_selected_spreadsheet_cells h.selEx).map (fun p => (p.1.oid, p.2))

/-- The entries the sheet-level fallback hands to its nested loop
(each selected sheet's `ViewObject.getView().selectedCells()`). -/
def fallbackEntries (h : Host) : List (Nat × String) :=
  (getSpreadsheets h.sel).flatMap
    (fun s => (h.viewCells s.oid).map (fun c => (s.oid, c)))

/-- The sequence of (sheet, label-cell) entries `main()` hands to the
processing loop: strategy 1 when it yields anything, else the fallback. -/
def producedEntries (h : Host) : List (Nat × String) :=
  if strategy1Entries h = [] then fallbackEntries h else strategy1Entries h

/-- The observable outcome of one `main()` run. -/
structure MainResult where
  attempts : List AttemptRec
  noSelection : Bool
  recompute : Bool
  completed : Bool
deriving DecidableEq

/-- `main()`: strategy 1 if it yields any pair, else the sheet-level
fallback; the no-spreadsheet message box when neither applies.
`App.ActiveDocument.recompute()` runs only if the processing loop finished
without an uncaught exception. -/
def mainRun (h : Host) : MainResult :=
  let cell_pairs := iter_selected_spreadsheet_cells h.selEx
  if cell_pairs.isEmpty then
    let spreadsheets := getSpreadsheets h.sel
    if spreadsheets.isEmpty then
      { attempts := [], noSelection := true, recompute := false, completed := true }
    else
      let p := processAll h (fallbackEntries h)
      { attempts := p.1, noSelection := false, recompute := p.2, completed := p.2 }
  else
    let p := processAll h (strategy1Entries h)
    { attempts := p.1, noSelection := false, recompute := p.2, completed := p.2 }

/-! ## Concrete hosts used by witnesses and counterexamples -/

/-- A host whose selection is a single sheet selected in the tree with no
cells selected in its view (strategy 1 empty, strategy 2 finds the sheet). -/
def hostSheetNoCells : Host where
  selEx := []
  sel := [HObj.mk "Spreadsheet::Sheet" 1 none]
  viewCells := fun _ => []
  contents := fun _ _ => ""
  fullName := fun _ => "Doc#Sheet"
  setAlias := fun _ _ _ => none

/-- A host with cell `B3` of one sheet selected directly, label text
`radius`, and a host `setAlias` that always succeeds. -/
def hostCellB3 : Host where
  selEx := [(HObj.mk "Spreadsheet::Sheet" 1 none, ["B3"])]
  sel := []
  viewCells := fun _ => []
  contents := fun _ _ => "radius"
  fullName := fun _ => "Doc#Sheet"
  setAlias := fun _ _ _ => none

/-- A host whose label cells contain `foo()` (empty manual override). -/
def hostEmptyOverride : Host where
  selEx := []
  sel := []
  viewCells := fun _ => []
  contents := fun _ _ => "foo()"
  fullName := fun _ => "Doc#Sheet"
  setAlias := fun _ _ _ => none

/-- A host whose `setAlias` always fails with a duplicate-alias message. -/
def hostAlwaysFails : Host where
  selEx := []
  sel := []
  viewCells := fun _ => []
  contents := fun _ _ => "radius"
  fullName := fun _ => "Doc#Sheet"
  setAlias := fun _ _ _ => some "Alias already defined"


/-- Modelled from the spec (§3, CellLabel): the pattern `<letters><digits>`
(letters case-insensitive, digits starting `1`-`9` with no leading zero)
matched against the WHOLE string.  A full match forces the letter group to
be the maximal leading letter run, so this test is exactly whole-string
matching of `CELL_ADDR_RE`. -/
def specCellLabel (s : String) : Bool :=
  match s.data.dropWhile isAsciiLetter with
  | [] => false
  | d :: rest =>
    !(s.data.takeWhile isAsciiLetter).isEmpty && isNonzeroDigitChar d &&
      rest.all isDigitChar

/-! ## Basic lemmas: fuel elimination -/

theorem colLettersAux_zero (f : Nat) : colLettersAux f 0 = [] := by
  cases f <;> rfl

theorem natReprCore_zero (f : Nat) : natReprCore f 0 = [] := by
  cases f <;> rfl

theorem colLettersAux_congr (d : Nat) :
    ∀ f1 f2, d ≤ f1 → d ≤ f2 → colLettersAux f1 d = colLettersAux f2 d := by
  induction d using Nat.strong_induction_on with
  | _ d ih =>
    intro f1 f2 h1 h2
    cases d with
    | zero => rw [colLettersAux_zero, colLettersAux_zero]
    | succ d =>
      obtain ⟨g1, rfl⟩ : ∃ g, f1 = g + 1 := ⟨f1 - 1, by omega⟩
      obtain ⟨g2, rfl⟩ : ∃ g, f2 = g + 1 := ⟨f2 - 1, by omega⟩
      have hdiv : (d + 1) / 26 < d + 1 := Nat.div_lt_self (by omega) (by omega)
      simp only [colLettersAux]
      by_cases hm : (d + 1) % 26 = 0
      · rw [if_pos hm, if_pos hm,
          ih ((d + 1) / 26 - 1) (by omega) g1 g2 (by omega) (by omega)]
      · rw [if_neg hm, if_neg hm,
          ih ((d + 1) / 26) (by omega) g1 g2 (by omega) (by omega)]

/-- The clean recurrence of the `while` loop, with the fuel eliminated. -/
theorem colLetters_eq (d : Nat) :
    colLetters d =
      if d = 0 then []
      else if d % 26 = 0 then
        colLetters (d / 26 - 1) ++ [Char.ofNat (26 + MAGIC_NUMBER)]
      else colLetters (d / 26) ++ [Char.ofNat (d % 26 + MAGIC_NUMBER)] := by
  cases d with
  | zero => rfl
  | succ d =>
    have hdiv : (d + 1) / 26 < d + 1 := Nat.div_lt_self (by omega) (by omega)
    simp only [colLetters, colLettersAux, Nat.succ_ne_self, if_neg (Nat.succ_ne_zero d)]
    by_cases hm : (d + 1) % 26 = 0
    · rw [if_pos hm, if_pos hm,
        colLettersAux_congr ((d + 1) / 26 - 1) d ((d + 1) / 26 - 1) (by omega) (by omega)]
    · rw [if_neg hm, if_neg hm,
        colLettersAux_congr ((d + 1) / 26) d ((d + 1) / 26) (by omega) (by omega)]

theorem natReprCore_congr (n : Nat) :
    ∀ f1 f2, n ≤ f1 → n ≤ f2 → natReprCore f1 n = natReprCore f2 n := by
  induction n using Nat.strong_induction_on with
  | _ n ih =>
    intro f1 f2 h1 h2
    cases n with
    | zero => rw [natReprCore_zero, natReprCore_zero]
    | succ n =>
      obtain ⟨g1, rfl⟩ : ∃ g, f1 = g + 1 := ⟨f1 - 1, by omega⟩
      obtain ⟨g2, rfl⟩ : ∃ g, f2 = g + 1 := ⟨f2 - 1, by omega⟩
      have hdiv : (n + 1) / 10 < n + 1 := Nat.div_lt_self (by omega) (by omega)
      simp only [natReprCore]
      rw [ih ((n + 1) / 10) (by omega) g1 g2 (by omega) (by omega)]

/-- The clean decimal recurrence, with the fuel eliminated. -/
theorem natReprAux_eq (n : Nat) :
    natReprAux n =
      if n = 0 then [] else natReprAux (n / 10) ++ [digitChar (n % 10)] := by
  cases n with
  | zero => rfl
  | succ n =>
    have hdiv : (n + 1) / 10 < n + 1 := Nat.div_lt_self (by omega) (by omega)
    simp only [natReprAux, natReprCore, if_neg (Nat.succ_ne_zero n)]
    rw [natReprCore_congr ((n + 1) / 10) n ((n + 1) / 10) (by omega) (by omega)]

/-! ## Basic lemmas: bijective base 26 -/

theorem lettersToColAux_shift (l : List Char) :
    ∀ i, lettersToColAux i l = 26 ^ i * lettersToColAux 0 l := by
  induction l with
  | nil => intro i; simp [lettersToColAux]
  | cons c cs ih =>
    intro i
    simp only [lettersToColAux, ih (i + 1), ih 1]
    ring

theorem lettersToCol_nil : lettersToCol [] = 0 := rfl

theorem lettersToCol_append (l : List Char) (c : Char) :
    lettersToCol (l ++ [c]) = 26 * lettersToCol l + letterVal c := by
  simp only [lettersToCol, List.reverse_append, List.reverse_singleton,
    List.singleton_append, lettersToColAux]
  rw [lettersToColAux_shift l.reverse 1]
  ring

theorem letterVal_ofNat (m : Nat) (h1 : 1 ≤ m) (h26 : m ≤ 26) :
    letterVal (Char.ofNat (m + MAGIC_NUMBER)) = m := by
  have ht : (Char.ofNat (m + 64)).toNat = m + 64 := char_toNat_ofNat _ (by omega)
  simp only [letterVal, pyUpper, MAGIC_NUMBER]
  rw [ht, if_neg (by omega), ht]
  omega

theorem isAsciiLetter_ofNat (m : Nat) (h1 : 1 ≤ m) (h26 : m ≤ 26) :
    isAsciiLetter (Char.ofNat (m + MAGIC_NUMBER)) = true := by
  have ht : (Char.ofNat (m + MAGIC_NUMBER)).toNat = m + 64 := by
    simpa [MAGIC_NUMBER] using char_toNat_ofNat (m + 64) (by omega)
  simp [isAsciiLetter, ht]
  omega

theorem colLetters_mem_range (d : Nat) :
    ∀ c ∈ colLetters d, 65 ≤ c.toNat ∧ c.toNat ≤ 90 := by
  induction d using Nat.strong_induction_on with
  | _ d ih =>
    intro c hc
    rw [colLetters_eq] at hc
    by_cases h0 : d = 0
    · simp [h0] at hc
    · have hdiv : d / 26 < d := Nat.div_lt_self (by omega) (by omega)
      by_cases hm : d % 26 = 0
      · rw [if_neg h0, if_pos hm] at hc
        rcases List.mem_append.mp hc with h | h
        · exact ih _ (by omega) c h
        · have ht : (Char.ofNat (26 + MAGIC_NUMBER)).toNat = 90 := by
            simp only [MAGIC_NUMBER]
            exact char_toNat_ofNat 90 (by omega)
          simp at h
          subst h
          omega
      · rw [if_neg h0, if_neg hm] at hc
        rcases List.mem_append.mp hc with h | h
        · exact ih _ (by omega) c h
        · have hlt : d % 26 < 26 := Nat.mod_lt _ (by omega)
          have ht : (Char.ofNat (d % 26 + MAGIC_NUMBER)).toNat = d % 26 + 64 := by
            simpa [MAGIC_NUMBER] using char_toNat_ofNat (d % 26 + 64) (by omega)
          simp at h
          subst h
          omega

theorem colLetters_all_letters (d : Nat) :
    ∀ c ∈ colLetters d, isAsciiLetter c = true := by
  intro c hc
  have := colLetters_mem_range d c hc
  simp [isAsciiLetter]
  omega

theorem colLetters_ne_nil (d : Nat) (h : d ≠ 0) : colLetters d ≠ [] := by
  rw [colLetters_eq, if_neg h]
  by_cases hm : d % 26 = 0 <;> simp [hm]

/-- Round trip, letters side: decoding the letters produced by the
encoder's column loop recovers the column. -/
theorem lettersToCol_colLetters (d : Nat) : lettersToCol (colLetters d) = d := by
  induction d using Nat.strong_induction_on with
  | _ d ih =>
    rw [colLetters_eq]
    by_cases h0 : d = 0
    · simp [h0, lettersToCol_nil]
    · have hdiv : d / 26 < d := Nat.div_lt_self (by omega) (by omega)
      by_cases hm : d % 26 = 0
      · rw [if_neg h0, if_pos hm, lettersToCol_append,
          ih (d / 26 - 1) (by omega), letterVal_ofNat 26 (by omega) (by omega)]
        omega
      · have hlt : d % 26 < 26 := Nat.mod_lt _ (by omega)
        rw [if_neg h0, if_neg hm, lettersToCol_append,
          ih (d / 26) (by omega), letterVal_ofNat (d % 26) (by omega) (by omega)]
        omega

/-- The encoder's recurrence in terms of `k * 26 + v` with `1 ≤ v ≤ 26`
(the bijective base-26 digit decomposition). -/
theorem colLetters_mul_add (k v : Nat) (h1 : 1 ≤ v) (h26 : v ≤ 26) :
    colLetters (k * 26 + v) = colLetters k ++ [Char.ofNat (v + MAGIC_NUMBER)] := by
  rw [colLetters_eq (k * 26 + v)]
  by_cases hv : v = 26
  · subst hv
    have hm : (k * 26 + 26) % 26 = 0 := by omega
    have hq : (k * 26 + 26) / 26 - 1 = k := by omega
    rw [if_neg (by omega), if_pos hm, hq]
  · have hm : (k * 26 + v) % 26 = v := by omega
    have hq : (k * 26 + v) / 26 = k := by omega
    rw [if_neg (by omega), if_neg (by omega ∘ hm.symm.trans), hq, hm]

theorem letter_facts (c : Char) (h : isAsciiLetter c = true) :
    1 ≤ letterVal c ∧ letterVal c ≤ 26 ∧
      Char.ofNat (letterVal c + MAGIC_NUMBER) = pyUpper c := by
  simp only [isAsciiLetter, decide_eq_true_eq] at h
  rcases h with h | h
  · have hup : pyUpper c = c := by
      simp only [pyUpper]
      rw [if_neg (by omega)]
    have hv : letterVal c = c.toNat - 64 := by
      simp [letterVal, hup, MAGIC_NUMBER]
    refine ⟨by omega, by omega, ?_⟩
    rw [hup, hv]
    have : c.toNat - 64 + MAGIC_NUMBER = c.toNat := by simp [MAGIC_NUMBER]; omega
    rw [this, Char.ofNat_toNat]
  · have hup : pyUpper c = Char.ofNat (c.toNat - 32) := by
      simp only [pyUpper]
      rw [if_pos (by omega)]
    have ht : (Char.ofNat (c.toNat - 32)).toNat = c.toNat - 32 :=
      char_toNat_ofNat _ (by omega)
    have hv : letterVal c = c.toNat - 96 := by
      simp [letterVal, hup, ht, MAGIC_NUMBER]
      omega
    refine ⟨by omega, by omega, ?_⟩
    rw [hup, hv]
    congr 1
    simp [MAGIC_NUMBER]
    omega

/-- Round trip, column side: encoding the column decoded from an
all-letter group reproduces the group, uppercased. -/
theorem colLetters_lettersToCol (l : List Char)
    (h : ∀ c ∈ l, isAsciiLetter c = true) :
    colLetters (lettersToCol l) = l.map pyUpper := by
  induction l using List.reverseRecOn with
  | nil => simp [lettersToCol_nil]; rfl
  | append_singleton l c ih =>
    have hc := letter_facts c (h c (by simp))
    rw [lettersToCol_append, Nat.mul_comm,
      colLetters_mul_add (lettersToCol l) (letterVal c) hc.1 hc.2.1,
      ih (fun x hx => h x (by simp [hx])), hc.2.2, List.map_append]
    rfl

/-! ## Basic lemmas: decimal digits -/

theorem digitsToNat_nil : digitsToNat [] = 0 := rfl

theorem digitsToNat_append (l : List Char) (c : Char) :
    digitsToNat (l ++ [c]) = digitsToNat l * 10 + (c.toNat - 48) := by
  simp [digitsToNat, List.foldl_append]

theorem digitChar_toNat (m : Nat) (h : m < 10) : (digitChar m).toNat = m + 48 :=
  char_toNat_ofNat _ (by omega)

theorem isDigitChar_digitChar (m : Nat) (h : m < 10) :
    isDigitChar (digitChar m) = true := by
  simp [isDigitChar, digitChar_toNat m h]
  omega

theorem digitsToNat_natReprAux (n : Nat) : digitsToNat (natReprAux n) = n := by
  induction n using Nat.strong_induction_on with
  | _ n ih =>
    rw [natReprAux_eq]
    by_cases h0 : n = 0
    · simp [h0, digitsToNat_nil]
    · have hdiv : n / 10 < n := Nat.div_lt_self (by omega) (by omega)
      rw [if_neg h0, digitsToNat_append, ih (n / 10) hdiv,
        digitChar_toNat (n % 10) (by omega)]
      omega

theorem natReprAux_all_digits (n : Nat) :
    ∀ c ∈ natReprAux n, isDigitChar c = true := by
  induction n using Nat.strong_induction_on with
  | _ n ih =>
    intro c hc
    rw [natReprAux_eq] at hc
    by_cases h0 : n = 0
    · simp [h0] at hc
    · have hdiv : n / 10 < n := Nat.div_lt_self (by omega) (by omega)
      rw [if_neg h0] at hc
      rcases List.mem_append.mp hc with h | h
      · exact ih (n / 10) hdiv c h
      · simp at h
        subst h
        exact isDigitChar_digitChar (n % 10) (by omega)

theorem natReprAux_head (n : Nat) (h : 1 ≤ n) :
    ∃ d ds, natReprAux n = d :: ds ∧ isNonzeroDigitChar d = true := by
  induction n using Nat.strong_induction_on with
  | _ n ih =>
    rw [natReprAux_eq, if_neg (by omega)]
    by_cases hn : n < 10
    · have h10 : n / 10 = 0 := by omega
      rw [h10, natReprAux_eq]
      refine ⟨digitChar (n % 10), [], by simp, ?_⟩
      simp [isNonzeroDigitChar, digitChar_toNat (n % 10) (by omega)]
      omega
    · have hdiv : n / 10 < n := Nat.div_lt_self (by omega) (by omega)
      obtain ⟨d, ds, hds, hd⟩ := ih (n / 10) hdiv (by omega)
      exact ⟨d, ds ++ [digitChar (n % 10)], by rw [hds]; rfl, hd⟩

theorem digitsToNat_foldl_pos (ds : List Char) :
    ∀ acc, 1 ≤ acc → 1 ≤ ds.foldl (fun a c => a * 10 + (c.toNat - 48)) acc := by
  induction ds with
  | nil => intro acc h; exact h
  | cons c cs ih =>
    intro acc h
    simp only [List.foldl_cons]
    exact ih (acc * 10 + (c.toNat - 48)) (by omega)

theorem digitsToNat_pos (d : Char) (ds : List Char)
    (hd : isNonzeroDigitChar d = true) : 1 ≤ digitsToNat (d :: ds) := by
  simp only [isNonzeroDigitChar, decide_eq_true_eq] at hd
  simp only [digitsToNat, List.foldl_cons]
  exact digitsToNat_foldl_pos ds _ (by omega)

/-- Round trip, digits side: rendering the number parsed from a leading
nonzero digit string reproduces the string. -/
theorem natReprAux_digitsToNat (l : List Char) :
    (∀ c ∈ l, isDigitChar c = true) →
    (∀ d ds, l = d :: ds → isNonzeroDigitChar d = true) →
    l ≠ [] → natReprAux (digitsToNat l) = l := by
  induction l using List.reverseRecOn with
  | nil => intro _ _ h; exact absurd rfl h
  | append_singleton l c ih =>
    intro hall hhead _
    have hcdig : isDigitChar c = true := hall c (by simp)
    have hcval : 48 ≤ c.toNat ∧ c.toNat ≤ 57 := by
      simpa [isDigitChar] using hcdig
    have hc48 : digitChar (c.toNat - 48) = c := by
      have : c.toNat - 48 + 48 = c.toNat := by omega
      rw [digitChar, this, Char.ofNat_toNat]
    cases l with
    | nil =>
      have hnz : 49 ≤ c.toNat ∧ c.toNat ≤ 57 := by
        simpa [isNonzeroDigitChar] using hhead c [] (by simp)
      simp only [List.nil_append]
      have hval : digitsToNat [c] = c.toNat - 48 := by
        simp [digitsToNat]
      rw [hval, natReprAux_eq, if_neg (by omega)]
      have h10 : (c.toNat - 48) / 10 = 0 := by omega
      have hm : (c.toNat - 48) % 10 = c.toNat - 48 := by omega
      rw [h10, hm, natReprAux_eq, hc48]
      rfl
    | cons a l2 =>
      have ha : isNonzeroDigitChar a = true := hhead a (l2 ++ [c]) rfl
      have hpos : 1 ≤ digitsToNat (a :: l2) := digitsToNat_pos a l2 ha
      rw [show a :: l2 ++ [c] = (a :: l2) ++ [c] from rfl, digitsToNat_append]
      have hv : c.toNat - 48 < 10 := by omega
      rw [natReprAux_eq, if_neg (by omega)]
      have hq : (digitsToNat (a :: l2) * 10 + (c.toNat - 48)) / 10 =
          digitsToNat (a :: l2) := by omega
      have hm : (digitsToNat (a :: l2) * 10 + (c.toNat - 48)) % 10 =
          c.toNat - 48 := by omega
      have ihr : natReprAux (digitsToNat (a :: l2)) = a :: l2 := by
        refine ih (fun x hx => hall x ?_) (fun d ds hds => ?_) (by simp)
        · simp only [List.cons_append]
          rcases List.mem_cons.mp hx with h1 | h2
          · exact h1 ▸ List.mem_cons_self a _
          · exact List.mem_cons_of_mem a (List.mem_append.mpr (Or.inl h2))
        · cases hds; exact ha
      rw [hq, hm, hc48, ihr]

/-! ## Basic lemmas: takeWhile / dropWhile decomposition -/

theorem takeWhile_append_all {α : Type} (p : α → Bool) (xs ys : List α)
    (h : ∀ x ∈ xs, p x = true) :
    (xs ++ ys).takeWhile p = xs ++ ys.takeWhile p := by
  induction xs with
  | nil => simp
  | cons a l ih =>
    have ha : p a = true := h a (by simp)
    simp [List.cons_append, List.takeWhile_cons, ha,
      ih (fun x hx => h x (by simp [hx]))]

theorem dropWhile_append_all {α : Type} (p : α → Bool) (xs ys : List α)
    (h : ∀ x ∈ xs, p x = true) :
    (xs ++ ys).dropWhile p = ys.dropWhile p := by
  induction xs with
  | nil => simp
  | cons a l ih =>
    simp only [List.cons_append, List.dropWhile_cons, h a (by simp)]
    exact ih (fun x hx => h x (by simp [hx]))

theorem takeWhile_all {α : Type} (p : α → Bool) (xs : List α)
    (h : ∀ x ∈ xs, p x = true) : xs.takeWhile p = xs := by
  have := takeWhile_append_all p xs [] h
  simpa using this

theorem takeWhile_cons_false {α : Type} (p : α → Bool) (y : α) (ys : List α)
    (h : p y = false) : (y :: ys).takeWhile p = [] := by
  simp [List.takeWhile_cons, h]

theorem dropWhile_cons_false {α : Type} (p : α → Bool) (y : α) (ys : List α)
    (h : p y = false) : (y :: ys).dropWhile p = y :: ys := by
  simp [List.dropWhile_cons, h]

/-! ## cellAddrMatch decomposition -/

theorem isAsciiLetter_of_digit (d : Char) (h : isDigitChar d = true) :
    isAsciiLetter d = false := by
  simp only [isDigitChar, decide_eq_true_eq] at h
  simp [isAsciiLetter]
  omega

theorem isDigitChar_of_nonzero (d : Char) (h : isNonzeroDigitChar d = true) :
    isDigitChar d = true := by
  simp only [isNonzeroDigitChar, decide_eq_true_eq] at h
  simp [isDigitChar]
  omega

/-- How `CELL_ADDR_RE.match` behaves on a string starting with a nonempty
letter run followed by a nonzero digit: it matches, group 1 is the letter
run, group 2 the maximal digit run that follows it. -/
theorem cellAddrMatch_decomp (letters : List Char) (d : Char) (rest : List Char)
    (hl : letters ≠ []) (hla : ∀ c ∈ letters, isAsciiLetter c = true)
    (hd : isNonzeroDigitChar d = true) :
    cellAddrMatch (letters ++ d :: rest) =
      some (letters, (d :: rest).takeWhile isDigitChar) := by
  have hdl : isAsciiLetter d = false :=
    isAsciiLetter_of_digit d (isDigitChar_of_nonzero d hd)
  have htake : (letters ++ d :: rest).takeWhile isAsciiLetter = letters := by
    rw [takeWhile_append_all isAsciiLetter letters (d :: rest) hla,
      takeWhile_cons_false isAsciiLetter d rest hdl, List.append_nil]
  have hdrop : (letters ++ d :: rest).dropWhile isAsciiLetter = d :: rest := by
    rw [dropWhile_append_all isAsciiLetter letters (d :: rest) hla,
      dropWhile_cons_false isAsciiLetter d rest hdl]
  simp only [cellAddrMatch, htake, hdrop]
  rw [if_neg (by simp [hl]), if_pos hd]

/-- Inversion: when `CELL_ADDR_RE.match` succeeds, the string starts with a
nonempty letter run immediately followed by a nonzero digit. -/
theorem cellAddrMatch_isSome_iff (s : List Char) :
    (cellAddrMatch s).isSome = true ↔
      ∃ letters d rest, s = letters ++ d :: rest ∧ letters ≠ [] ∧
        (∀ c ∈ letters, isAsciiLetter c = true) ∧ isNonzeroDigitChar d = true := by
  constructor
  · intro h
    simp only [cellAddrMatch] at h
    rcases hrest : s.dropWhile isAsciiLetter with _ | ⟨d, tail⟩
    · rw [hrest] at h
      simp at h
    · rw [hrest] at h
      by_cases hemp : (s.takeWhile isAsciiLetter).isEmpty = true
      · simp [hemp] at h
      · by_cases hnz : isNonzeroDigitChar d = true
        · refine ⟨s.takeWhile isAsciiLetter, d, tail, ?_, ?_, ?_, hnz⟩
          · rw [← hrest, List.takeWhile_append_dropWhile]
          · intro hn
            rw [hn] at hemp
            exact hemp rfl
          · exact fun c hc => List.mem_takeWhile_imp hc
        · simp [hemp, hnz] at h
  · rintro ⟨letters, d, rest, rfl, hl, hla, hd⟩
    rw [cellAddrMatch_decomp letters d rest hl hla hd]
    rfl

/-- `a1_to_rowcol` unfolded over an explicit character list. -/
theorem a1_to_rowcol_mk_some (l letters digits : List Char)
    (h : cellAddrMatch l = some (letters, digits)) :
    a1_to_rowcol ⟨l⟩ = some (digitsToNat digits, lettersToCol letters) := by
  unfold a1_to_rowcol
  simp [h]

theorem a1_to_rowcol_mk_none (l : List Char) (h : cellAddrMatch l = none) :
    a1_to_rowcol ⟨l⟩ = none := by
  unfold a1_to_rowcol
  simp [h]

theorem a1_to_rowcol_isSome_iff (s : String) :
    (a1_to_rowcol s).isSome = true ↔ (cellAddrMatch s.data).isSome = true := by
  unfold a1_to_rowcol
  rcases h : cellAddrMatch s.data with _ | ⟨letters, digits⟩ <;> simp [h]

theorem pyUpper_of_digit (c : Char) (h : isDigitChar c = true) : pyUpper c = c := by
  simp only [isDigitChar, decide_eq_true_eq] at h
  rw [pyUpper, if_neg (by omega)]

theorem map_id_of_forall {α : Type} (f : α → α) (l : List α)
    (h : ∀ c ∈ l, f c = c) : l.map f = l := by
  induction l with
  | nil => rfl
  | cons a t ih =>
    simp only [List.map_cons, h a (by simp)]
    rw [ih (fun c hc => h c (by simp [hc]))]

/-! ## Claim C1 -/

/-- C1: for every row ≥ 1 and column ≥ 1, decoding the label produced by
the encoder returns the original pair:
`a1_to_rowcol(rowcol_to_a1(row, column)) == (row, column)`. -/
theorem c1_decode_encode_roundtrip (row col : Nat) (hr : 1 ≤ row) (hc : 1 ≤ col) :
    (rowcol_to_a1 (row : Int) (col : Int)).bind a1_to_rowcol = some (row, col) := by
  rw [rowcol_to_a1, if_neg (by omega)]
  have hcol : ((col : Int)).toNat = col := by omega
  have hrepr : pyIntRepr (row : Int) = natReprAux row := by
    rw [pyIntRepr, if_neg (by omega), show ((row : Int)).toNat = row by omega,
      natRepr, if_neg (by omega)]
  obtain ⟨d, ds, hds, hd⟩ := natReprAux_head row hr
  rw [hcol, hrepr, hds]
  show a1_to_rowcol ⟨colLetters col ++ d :: ds⟩ = some (row, col)
  rw [a1_to_rowcol_mk_some _ (colLetters col) ((d :: ds).takeWhile isDigitChar)
    (cellAddrMatch_decomp (colLetters col) d ds (colLetters_ne_nil col (by omega))
      (colLetters_all_letters col) hd)]
  have hall : ∀ c ∈ d :: ds, isDigitChar c = true := by
    rw [← hds]
    exact natReprAux_all_digits row
  rw [takeWhile_all isDigitChar (d :: ds) hall, ← hds, digitsToNat_natReprAux,
    lettersToCol_colLetters]

theorem c1_roundtrip_witness :
    (rowcol_to_a1 ((3 : Nat) : Int) ((28 : Nat) : Int)).bind a1_to_rowcol =
      some (3, 28) :=
  c1_decode_encode_roundtrip 3 28 (by decide) (by decide)

/-! ## Claim C2 -/

/-- C2: for every label matching the CellLabel pattern as a whole string —
a nonempty letter group `letters` followed by a digit group `d :: ds` with
`d ∈ 1..9` — re-encoding its decoding yields the uppercased label:
`rowcol_to_a1(*a1_to_rowcol(L))` equals `L` uppercased. -/
theorem c2_canonical_roundtrip (letters : List Char) (d : Char) (ds : List Char)
    (hl : letters ≠ []) (hla : ∀ c ∈ letters, isAsciiLetter c = true)
    (hd : isNonzeroDigitChar d = true) (hds : ∀ c ∈ ds, isDigitChar c = true) :
    (a1_to_rowcol ⟨letters ++ d :: ds⟩).bind
        (fun rc => rowcol_to_a1 (rc.1 : Int) (rc.2 : Int)) =
      some ⟨(letters ++ d :: ds).map pyUpper⟩ := by
  rw [a1_to_rowcol_mk_some _ letters ((d :: ds).takeWhile isDigitChar)
    (cellAddrMatch_decomp letters d ds hl hla hd)]
  have hall : ∀ c ∈ d :: ds, isDigitChar c = true := by
    intro c hc
    rcases List.mem_cons.mp hc with h | h
    · exact h ▸ isDigitChar_of_nonzero d hd
    · exact hds c h
  rw [takeWhile_all isDigitChar (d :: ds) hall]
  show rowcol_to_a1 ((digitsToNat (d :: ds) : Int)) ((lettersToCol letters : Int)) = _
  rw [rowcol_to_a1, if_neg (by omega)]
  rw [show ((lettersToCol letters : Int)).toNat = lettersToCol letters by omega,
    colLetters_lettersToCol letters hla]
  have hpos : 1 ≤ digitsToNat (d :: ds) := digitsToNat_pos d ds hd
  have h2 : pyIntRepr ((digitsToNat (d :: ds) : Int)) = natReprAux (digitsToNat (d :: ds)) := by
    rw [pyIntRepr, if_neg (by omega),
      show ((digitsToNat (d :: ds) : Int)).toNat = digitsToNat (d :: ds) by omega,
      natRepr, if_neg (by omega)]
  rw [h2, natReprAux_digitsToNat (d :: ds) hall
    (fun d2 ds2 h => by cases h; exact hd) (by simp)]
  have hdigmap : (d :: ds).map pyUpper = d :: ds :=
    map_id_of_forall pyUpper (d :: ds) (fun c hc => pyUpper_of_digit c (hall c hc))
  rw [List.map_append, hdigmap]

theorem c2_roundtrip_witness :
    (a1_to_rowcol ⟨['a', 'b'] ++ '1' :: ['0']⟩).bind
        (fun rc => rowcol_to_a1 (rc.1 : Int) (rc.2 : Int)) =
      some ⟨(['a', 'b'] ++ '1' :: ['0']).map pyUpper⟩ :=
  c2_canonical_roundtrip ['a', 'b'] '1' ['0'] (by decide) (by decide) (by decide)
    (by decide)

/-! ## Claim C7 -/

/-- C7 counterexample: the claim says `rowcol_to_a1` fails with
`InvalidCoordinate` whenever `row < 1`; but at `(row, column) = (0, 1)` the
source performs no validation and happily returns the label `"A0"`. -/
theorem c7_counterexample : rowcol_to_a1 0 1 = some "A0" := by decide

/-- C7 (amended): `rowcol_to_a1` performs no validation at all.  It returns
a label for EVERY row (also `row < 1`) whenever `column ≥ 0`; for
`column = 0` the label has no letters at all, and for a negative row the
row digits carry a minus sign.  For `column < 0` the `while` loop never
terminates (modelled as `none`); no `InvalidCoordinate` failure exists. -/
theorem c7_no_validation :
    (∀ row column : Int, (rowcol_to_a1 row column).isSome = true ↔ 0 ≤ column)
    ∧ rowcol_to_a1 0 1 = some "A0"
    ∧ rowcol_to_a1 5 0 = some "5"
    ∧ rowcol_to_a1 (-3) 2 = some "B-3" := by
  refine ⟨fun row column => ?_, by decide, by decide, by decide⟩
  rw [rowcol_to_a1]
  by_cases h : column < 0
  · rw [if_pos h]
    simp
    omega
  · rw [if_neg h]
    simp
    omega

/-! ## Claim C8 -/

/-- C8 counterexample: the claim says `a1_to_rowcol` fails exactly when the
whole string does not match `<letters><digits>`; but `CELL_ADDR_RE` is used
with `re.match`, which only anchors at the start, so `"A1X"` — not a full
match — still decodes successfully to `(1, 1)`. -/
theorem c8_counterexample :
    a1_to_rowcol "A1X" = some (1, 1) ∧ specCellLabel "A1X" = false := by decide

/-- C8 (amended): `a1_to_rowcol` fails exactly when the string does not
START with the pattern: it succeeds iff the string begins with a nonempty
letter run immediately followed by a digit `1`-`9` (anything may follow the
digit run, since `re.match` does not anchor at the end). -/
theorem c8_match_condition (s : String) :
    (a1_to_rowcol s).isSome = true ↔
      ∃ letters d rest, s.data = letters ++ d :: rest ∧ letters ≠ [] ∧
        (∀ c ∈ letters, isAsciiLetter c = true) ∧ isNonzeroDigitChar d = true := by
  rw [a1_to_rowcol_isSome_iff]
  exact cellAddrMatch_isSome_iff s.data

/-! ## lastSplit and customAliasMatch -/

theorem lastSplit_none_iff (c : Char) (l : List Char) :
    lastSplit c l = none ↔ c ∉ l := by
  induction l with
  | nil => simp [lastSplit]
  | cons x xs ih =>
    rcases h : lastSplit c xs with _ | p
    · have hx : c ∉ xs := ih.mp h
      by_cases hxc : x = c
      · subst hxc
        simp [lastSplit, h]
      · simp [lastSplit, h, hxc, hx]
        exact fun he => hxc he.symm
    · have hx : c ∈ xs := by
        by_contra hn
        rw [ih.mpr hn] at h
        exact Option.noConfusion h
      simp [lastSplit, h, hx]

theorem lastSplit_some (c : Char) (l : List Char) :
    ∀ pre post, lastSplit c l = some (pre, post) →
      l = pre ++ c :: post ∧ c ∉ post := by
  induction l with
  | nil => intro pre post h; exact Option.noConfusion h
  | cons x xs ih =>
    intro pre post h
    simp only [lastSplit] at h
    rcases h2 : lastSplit c xs with _ | ⟨p2, q2⟩
    · rw [h2] at h
      by_cases hxc : x = c
      · rw [if_pos hxc] at h
        simp only [Option.some.injEq, Prod.mk.injEq] at h
        obtain ⟨h4, h5⟩ := h
        subst h4
        subst h5
        subst hxc
        exact ⟨rfl, (lastSplit_none_iff x xs).mp h2⟩
      · rw [if_neg hxc] at h
        exact Option.noConfusion h
    · rw [h2] at h
      simp only [Option.some.injEq, Prod.mk.injEq] at h
      obtain ⟨h4, h5⟩ := h
      obtain ⟨hl, hn⟩ := ih p2 q2 h2
      subst h4
      subst h5
      exact ⟨by rw [List.cons_append, ← hl], hn⟩

theorem lastSplit_of_decomp (c : Char) (pre post : List Char) (h : c ∉ post) :
    lastSplit c (pre ++ c :: post) = some (pre, post) := by
  induction pre with
  | nil =>
    simp [lastSplit, (lastSplit_none_iff c post).mpr h]
  | cons x p2 ih =>
    simp [lastSplit, ih]

theorem customAliasMatch_some (s : List Char) (pre mid post : List Char)
    (heq : firstLine s = pre ++ '(' :: mid ++ ')' :: post)
    (hmid : '(' ∉ mid) (hpost : ')' ∉ post) :
    customAliasMatch s = some mid := by
  have hassoc : firstLine s = (pre ++ '(' :: mid) ++ ')' :: post := by
    rw [heq]
  simp only [customAliasMatch, hassoc,
    lastSplit_of_decomp ')' (pre ++ '(' :: mid) post hpost,
    lastSplit_of_decomp '(' pre mid hmid]

theorem customAliasMatch_none (s : List Char)
    (h : ∀ pre mid post, firstLine s ≠ pre ++ '(' :: mid ++ ')' :: post) :
    customAliasMatch s = none := by
  rcases h1 : lastSplit ')' (firstLine s) with _ | ⟨p, q⟩
  · simp [customAliasMatch, h1]
  · rcases h2 : lastSplit '(' p with _ | ⟨p2, mid⟩
    · simp [customAliasMatch, h1, h2]
    · obtain ⟨hl1, _⟩ := lastSplit_some ')' (firstLine s) p q h1
      obtain ⟨hl2, _⟩ := lastSplit_some '(' p p2 mid h2
      exfalso
      refine h p2 mid q ?_
      rw [hl1, hl2]

/-! ## The REPLACEMENTS chain as a character-wise map -/

theorem replaceChar_append (c : Char) (r a b : List Char) :
    replaceChar c r (a ++ b) = replaceChar c r a ++ replaceChar c r b := by
  induction a with
  | nil => rfl
  | cons x xs ih =>
    simp only [List.cons_append, replaceChar, ih]
    by_cases hx : x = c
    · simp [hx, ih]
    · simp [hx, ih]

theorem applyReplacements_append (a b : List Char) :
    applyReplacements (a ++ b) =
      applyReplacements a ++ applyReplacements b := by
  simp [applyReplacements, replaceChar_append]

theorem applyReplacements_single (x : Char) :
    applyReplacements [x] = specSubst x := by
  by_cases h1 : x = ' '
  · subst h1; decide
  by_cases h2 : x = '.'
  · subst h2; decide
  by_cases h3 : x = 'ä'
  · subst h3; decide
  by_cases h4 : x = 'ö'
  · subst h4; decide
  by_cases h5 : x = 'ü'
  · subst h5; decide
  by_cases h6 : x = 'Ä'
  · subst h6; decide
  by_cases h7 : x = 'Ö'
  · subst h7; decide
  by_cases h8 : x = 'Ü'
  · subst h8; decide
  by_cases h9 : x = 'ß'
  · subst h9; decide
  by_cases h10 : x = Char.ofNat 39
  · subst h10; decide
  rw [applyReplacements, specSubst]
  simp [replaceChar, h1, h2, h3, h4, h5, h6, h7, h8, h9, h10]

theorem applyReplacements_eq_flatten (l : List Char) :
    applyReplacements l = (l.map specSubst).flatten := by
  induction l with
  | nil => rfl
  | cons x xs ih =>
    have hsplit : x :: xs = [x] ++ xs := rfl
    rw [List.map_cons, List.flatten_cons, hsplit, applyReplacements_append,
      applyReplacements_single, ih]

/-! ## Claim C3 -/

/-- C3 counterexample: the claim says `textToAlias` returns the
parenthesized content whenever the text contains a parenthesized group.
`"x\n(a)"` contains the group `(a)`, but `CUSTOM_ALIAS_RE`'s dot does not
cross the newline, so the match fails and the substitution branch returns
the text unchanged instead of `"a"`. -/
theorem c3_counterexample :
    "x\n(a)".data = ['x', '\n'] ++ '(' :: ['a'] ++ ')' :: [] ∧
    textToAlias "x\n(a)" = "x\n(a)" ∧
    textToAlias "x\n(a)" ≠ "a" := by decide

/-- C3 (amended): when the FIRST LINE of the text contains `(` followed
later by `)`, `textToAlias` returns, verbatim, the content between the last
such `(` preceding the last `)` of that line and that `)` (the match cannot
cross a newline); otherwise it returns the text with exactly the fixed
substitution table applied character-wise (`specSubst`: space and period to
underscore, ä/ö/ü/Ä/Ö/Ü to ae/oe/ue/Ae/Oe/Ue, ß to ss, apostrophe removed,
all other characters unchanged).  In particular the claim's four examples
hold. -/
theorem c3_textToAlias_characterization (t : String) :
    (∀ pre mid post,
        firstLine t.data = pre ++ '(' :: mid ++ ')' :: post → '(' ∉ mid →
        ')' ∉ post → textToAlias t = ⟨mid⟩)
    ∧ ((∀ pre mid post, firstLine t.data ≠ pre ++ '(' :: mid ++ ')' :: post) →
        textToAlias t = ⟨(t.data.map specSubst).flatten⟩)
    ∧ textToAlias "Outer Radius (r_out)" = "r_out"
    ∧ textToAlias "Outer Diameter" = "Outer_Diameter"
    ∧ textToAlias "Ärger" = "Aerger"
    ∧ textToAlias ⟨['d', 'o', 'n', Char.ofNat 39, 't']⟩ = "dont" := by
  refine ⟨?_, ?_, by decide, by decide, by decide, by decide⟩
  · intro pre mid post heq hmid hpost
    rw [textToAlias, customAliasMatch_some t.data pre mid post heq hmid hpost]
  · intro h
    rw [textToAlias, customAliasMatch_none t.data h,
      applyReplacements_eq_flatten]

theorem c3_characterization_witness : textToAlias "a(b)c" = "b" :=
  (c3_textToAlias_characterization "a(b)c").1 ['a'] ['b'] ['c'] (by decide)
    (by decide) (by decide)

/-! ## Claim C5 -/

/-- Python's substring test agrees with `List.IsInfix`. -/
theorem strContains_iff (hay needle : List Char) :
    strContains hay needle = true ↔ needle <:+: hay := by
  induction hay with
  | nil => simp [strContains, List.isEmpty_iff, List.infix_nil]
  | cons h t ih =>
    simp [strContains, Bool.or_eq_true, List.isPrefixOf_iff_prefix, ih,
      List.infix_cons_iff]

theorem str_infix_concat (a m b : String) : m.data <:+: (a ++ m ++ b).data := by
  refine ⟨a.data, b.data, ?_⟩
  simp [String.data_append]

theorem msg_infix_invalidAliasText (a c s m : String) :
    m.data <:+: (invalidAliasText a c s m).data := by
  rw [invalidAliasText]
  exact str_infix_concat _ m _

theorem msg_infix_duplicateAliasText (a c s m : String) :
    m.data <:+: (duplicateAliasText a c s m).data := by
  rw [duplicateAliasText]
  exact str_infix_concat _ m _

theorem msg_infix_genericAliasText (a c s m : String) :
    m.data <:+: (genericAliasText a c s m).data := by
  rw [genericAliasText]
  exact str_infix_concat _ m _

/-- C5: every host failure produces exactly one notification; the
original-case message appears verbatim (as a contiguous substring) in the
displayed text; and the classification follows the keyword heuristics:
both "invalid" and "character" in the lowercased message give the critical
"Invalid alias" box, else any of "already in use" / "already defined" /
"duplicate" gives the warning "Duplicate alias" box, else the critical
"Alias error" box. -/
theorem c5_error_classification (msg sheet cell aliasStr : String) :
    ∃ n : Notification,
      set_alias_with_diagnostics (some msg) sheet cell aliasStr =
        (false, some n) ∧
      msg.data <:+: n.text.data ∧
      ((("invalid".data <:+: (pyStrLower msg).data) ∧
        ("character".data <:+: (pyStrLower msg).data)) →
        n.severity = Severity.critical ∧ n.title = "Invalid alias") ∧
      (¬(("invalid".data <:+: (pyStrLower msg).data) ∧
         ("character".data <:+: (pyStrLower msg).data)) →
        (("already in use".data <:+: (pyStrLower msg).data) ∨
         ("already defined".data <:+: (pyStrLower msg).data) ∨
         ("duplicate".data <:+: (pyStrLower msg).data)) →
        n.severity = Severity.warning ∧ n.title = "Duplicate alias") ∧
      (¬(("invalid".data <:+: (pyStrLower msg).data) ∧
         ("character".data <:+: (pyStrLower msg).data)) →
        ¬(("already in use".data <:+: (pyStrLower msg).data) ∨
          ("already defined".data <:+: (pyStrLower msg).data) ∨
          ("duplicate".data <:+: (pyStrLower msg).data)) →
        n.severity = Severity.critical ∧ n.title = "Alias error") := by
  simp only [set_alias_with_diagnostics]
  by_cases hb : (strContains (pyStrLower msg).data "invalid".data &&
      strContains (pyStrLower msg).data "character".data) = true
  · rw [if_pos hb]
    rw [Bool.and_eq_true] at hb
    obtain ⟨hb1, hb2⟩ := hb
    have hprop : ("invalid".data <:+: (pyStrLower msg).data) ∧
        ("character".data <:+: (pyStrLower msg).data) :=
      ⟨(strContains_iff _ _).mp hb1, (strContains_iff _ _).mp hb2⟩
    exact ⟨_, rfl, msg_infix_invalidAliasText aliasStr cell sheet msg,
      fun _ => ⟨rfl, rfl⟩, fun hn _ => absurd hprop hn, fun hn _ => absurd hprop hn⟩
  · rw [if_neg hb]
    have hninv : ¬(("invalid".data <:+: (pyStrLower msg).data) ∧
        ("character".data <:+: (pyStrLower msg).data)) := by
      intro ⟨p1, p2⟩
      refine hb ?_
      rw [Bool.and_eq_true]
      exact ⟨(strContains_iff _ _).mpr p1, (strContains_iff _ _).mpr p2⟩
    by_cases hd : (strContains (pyStrLower msg).data "already in use".data ||
        strContains (pyStrLower msg).data "already defined".data ||
        strContains (pyStrLower msg).data "duplicate".data) = true
    · rw [if_pos hd]
      have hdup : ("already in use".data <:+: (pyStrLower msg).data) ∨
          ("already defined".data <:+: (pyStrLower msg).data) ∨
          ("duplicate".data <:+: (pyStrLower msg).data) := by
        rw [Bool.or_eq_true, Bool.or_eq_true] at hd
        rcases hd with (h2 | h2) | h2
        · exact Or.inl ((strContains_iff _ _).mp h2)
        · exact Or.inr (Or.inl ((strContains_iff _ _).mp h2))
        · exact Or.inr (Or.inr ((strContains_iff _ _).mp h2))
      exact ⟨_, rfl, msg_infix_duplicateAliasText aliasStr cell sheet msg,
        fun hp => absurd hp hninv, fun _ _ => ⟨rfl, rfl⟩,
        fun _ hn => absurd hdup hn⟩
    · rw [if_neg hd]
      have hndup : ¬(("already in use".data <:+: (pyStrLower msg).data) ∨
          ("already defined".data <:+: (pyStrLower msg).data) ∨
          ("duplicate".data <:+: (pyStrLower msg).data)) := by
        intro hp
        refine hd ?_
        rw [Bool.or_eq_true, Bool.or_eq_true]
        rcases hp with p | p | p
        · exact Or.inl (Or.inl ((strContains_iff _ _).mpr p))
        · exact Or.inl (Or.inr ((strContains_iff _ _).mpr p))
        · exact Or.inr ((strContains_iff _ _).mpr p)
      exact ⟨_, rfl, msg_infix_genericAliasText aliasStr cell sheet msg,
        fun hp => absurd hp hninv, fun _ hp => absurd hp hndup,
        fun _ _ => ⟨rfl, rfl⟩⟩

theorem c5_classification_witness :
    ∃ n : Notification,
      set_alias_with_diagnostics (some "Alias already defined") "Doc#Sheet"
          "C3" "radius" = (false, some n) ∧
      "Alias already defined".data <:+: n.text.data ∧
      ((("invalid".data <:+: (pyStrLower "Alias already defined").data) ∧
        ("character".data <:+: (pyStrLower "Alias already defined").data)) →
        n.severity = Severity.critical ∧ n.title = "Invalid alias") ∧
      (¬(("invalid".data <:+: (pyStrLower "Alias already defined").data) ∧
         ("character".data <:+: (pyStrLower "Alias already defined").data)) →
        (("already in use".data <:+: (pyStrLower "Alias already defined").data) ∨
         ("already defined".data <:+: (pyStrLower "Alias already defined").data) ∨
         ("duplicate".data <:+: (pyStrLower "Alias already defined").data)) →
        n.severity = Severity.warning ∧ n.title = "Duplicate alias") ∧
      (¬(("invalid".data <:+: (pyStrLower "Alias already defined").data) ∧
         ("character".data <:+: (pyStrLower "Alias already defined").data)) →
        ¬(("already in use".data <:+: (pyStrLower "Alias already defined").data) ∨
          ("already defined".data <:+: (pyStrLower "Alias already defined").data) ∨
          ("duplicate".data <:+: (pyStrLower "Alias already defined").data)) →
        n.severity = Severity.critical ∧ n.title = "Alias error") :=
  c5_error_classification "Alias already defined" "Doc#Sheet" "C3" "radius"

/-! ## process_cell and the processing loop -/

/-- `process_cell` raises no exception when the label decodes: the empty
check, decode, encode (column + 1 ≥ 1) and the diagnostics wrapper are all
total. -/
theorem process_cell_run_not_error (h : Host) (oid : Nat) (cell : String)
    (hdec : (a1_to_rowcol cell).isSome = true) :
    ∃ r, process_cell_run h oid cell = .ok r := by
  by_cases hc : h.contents oid cell = ""
  · exact ⟨none, by simp [process_cell_run, hc]⟩
  · rcases hdc : a1_to_rowcol cell with _ | ⟨row, column⟩
    · rw [hdc] at hdec
      simp at hdec
    · have henc : rowcol_to_a1 (row : Int) ((column : Int) + 1) =
          some ⟨colLetters ((column : Int) + 1).toNat ++ pyIntRepr (row : Int)⟩ := by
        rw [rowcol_to_a1, if_neg (by omega)]
      simp only [process_cell_run, if_neg hc, hdc, henc]
      exact ⟨_, rfl⟩

/-- The processing loop finishes and its trace is the pointwise trace of
each entry, for ANY outcome of the host `setAlias` calls, as long as every
entry's label decodes. -/
theorem processAll_eq (h : Host) (entries : List (Nat × String))
    (hdec : ∀ e ∈ entries, (a1_to_rowcol e.2).isSome = true) :
    processAll h entries = (entries.filterMap (runRec h), true) := by
  induction entries with
  | nil => rfl
  | cons e rest ih =>
    obtain ⟨r, hr⟩ := process_cell_run_not_error h e.1 e.2 (hdec e (by simp))
    have ihr := ih (fun x hx => hdec x (by simp [hx]))
    have hrr : runRec h e = r := by rw [runRec, hr]
    cases r with
    | none => simp [processAll, hr, ihr, List.filterMap_cons, hrr]
    | some rec => simp [processAll, hr, ihr, List.filterMap_cons, hrr]

/-- A failing diagnostics wrapper always shows a notification. -/
theorem set_alias_fail_notif (res : Option String) (s c a : String)
    (h : (set_alias_with_diagnostics res s c a).1 = false) :
    ((set_alias_with_diagnostics res s c a).2).isSome = true := by
  rcases res with _ | msg
  · simp [set_alias_with_diagnostics] at h
  · simp only [set_alias_with_diagnostics]
    split
    · rfl
    · split
      · rfl
      · rfl

theorem process_cell_run_inv (h : Host) (oid : Nat) (cell : String)
    (r : AttemptRec) (hr : process_cell_run h oid cell = .ok (some r)) :
    r.ok = false → r.notif.isSome = true := by
  simp only [process_cell_run] at hr
  by_cases hc : h.contents oid cell = ""
  · rw [if_pos hc] at hr
    exact absurd hr (by simp)
  · rw [if_neg hc] at hr
    rcases hdc : a1_to_rowcol cell with _ | ⟨row, column⟩ <;>
      simp only [hdc] at hr
    · exact absurd hr (by simp)
    · rcases henc : rowcol_to_a1 (row : Int) ((column : Int) + 1)
        with _ | nextCell <;> simp only [henc] at hr
      · exact absurd hr (by simp)
      · simp only [Except.ok.injEq, Option.some.injEq] at hr
        subst hr
        intro hok
        exact set_alias_fail_notif _ _ _ _ hok

theorem runRec_fail_notif (h : Host) (e : Nat × String) (r : AttemptRec)
    (hre : runRec h e = some r) : r.ok = false → r.notif.isSome = true := by
  rw [runRec] at hre
  rcases hpc : process_cell_run h e.1 e.2 with u | o <;> rw [hpc] at hre
  · exact absurd hre (by simp)
  · cases o with
    | none => exact absurd hre (by simp)
    | some r2 =>
      simp only [Option.some.injEq] at hre
      subst hre
      exact process_cell_run_inv h e.1 e.2 r2 (by rw [hpc])

/-! ## Claim C6 -/

/-- C6: isolation under failure.  For every entry list whose labels decode
and for EVERY behavior of the host `setAlias` call (the host function is an
arbitrary field of `h`), the loop completes (`true`) and the trace is the
pointwise `filterMap` of a single-entry function — a failure at entry k
cannot remove or change the attempts of entries k+1..N.  Moreover every
failed attempt in the trace carries a notification. -/
theorem c6_isolation (h : Host) (entries : List (Nat × String))
    (hdec : ∀ e ∈ entries, (a1_to_rowcol e.2).isSome = true) :
    processAll h entries = (entries.filterMap (runRec h), true) ∧
    ∀ r ∈ (processAll h entries).1, r.ok = false → r.notif.isSome = true := by
  have hmain := processAll_eq h entries hdec
  refine ⟨hmain, ?_⟩
  rw [hmain]
  intro r hr hok
  obtain ⟨e, he, hre⟩ := List.mem_filterMap.mp hr
  exact runRec_fail_notif h e r hre hok

theorem c6_isolation_witness :
    processAll hostAlwaysFails [(1, "A1"), (1, "A2")] =
      ([(1, "A1"), (1, "A2")].filterMap (runRec hostAlwaysFails), true) ∧
    ∀ r ∈ (processAll hostAlwaysFails [(1, "A1"), (1, "A2")]).1,
      r.ok = false → r.notif.isSome = true :=
  c6_isolation hostAlwaysFails [(1, "A1"), (1, "A2")] (by decide)

/-! ## Claim C4 -/

/-- The completed-attempt shape of `process_cell` on a decodable label with
non-empty contents. -/
theorem process_cell_run_eq (h : Host) (oid : Nat) (cell : String)
    (row column : Nat) (hne : h.contents oid cell ≠ "")
    (hdec : a1_to_rowcol cell = some (row, column)) (target : String)
    (henc : rowcol_to_a1 (row : Int) ((column : Int) + 1) = some target) :
    process_cell_run h oid cell = .ok (some
      ⟨target, textToAlias (h.contents oid cell),
        (set_alias_with_diagnostics
          (h.setAlias oid target (textToAlias (h.contents oid cell)))
          (h.fullName oid) target (textToAlias (h.contents oid cell))).1,
        (set_alias_with_diagnostics
          (h.setAlias oid target (textToAlias (h.contents oid cell)))
          (h.fullName oid) target (textToAlias (h.contents oid cell))).2⟩) := by
  simp [process_cell_run, hne, hdec, henc]

/-- C4: for every processed entry with non-empty cell text whose label
decodes to `(row, column)`, the attempted alias-set call targets
`rowcol_to_a1(row, column + 1)` — the cell one column to the right in the
same row — with the alias derived from the cell text. -/
theorem c4_target_cell (h : Host) (oid : Nat) (cell : String)
    (row column : Nat) (hne : h.contents oid cell ≠ "")
    (hdec : a1_to_rowcol cell = some (row, column)) :
    ∃ target, rowcol_to_a1 (row : Int) ((column : Int) + 1) = some target ∧
      ∃ r, process_cell_run h oid cell = .ok (some r) ∧ r.target = target ∧
        r.aliasStr = textToAlias (h.contents oid cell) := by
  have henc : rowcol_to_a1 (row : Int) ((column : Int) + 1) =
      some ⟨colLetters ((column : Int) + 1).toNat ++ pyIntRepr (row : Int)⟩ := by
    rw [rowcol_to_a1, if_neg (by omega)]
  exact ⟨_, henc,
    ⟨_, process_cell_run_eq h oid cell row column hne hdec _ henc, rfl, rfl⟩⟩

theorem c4_target_witness :
    ∃ target, rowcol_to_a1 ((3 : Nat) : Int) (((2 : Nat) : Int) + 1) =
        some target ∧
      ∃ r, process_cell_run hostCellB3 1 "B3" = .ok (some r) ∧
        r.target = target ∧
        r.aliasStr = textToAlias (hostCellB3.contents 1 "B3") :=
  c4_target_cell hostCellB3 1 "B3" 3 2 (by decide) (by decide)

/-! ## Claim C10 -/

/-- C10: the derived alias is never validated locally and may be empty.
Cell text `foo()` has an empty parenthesized override, so `textToAlias`
returns `""`; `process_cell` still invokes the host alias-set call with the
empty alias on the cell to the right (the guard skips only empty CELL
TEXT, which `foo()` is not). -/
theorem c10_empty_alias :
    textToAlias "foo()" = "" ∧
    hostEmptyOverride.contents 1 "B3" = "foo()" ∧
    hostEmptyOverride.contents 1 "B3" ≠ "" ∧
    process_cell_run hostEmptyOverride 1 "B3" =
      .ok (some ⟨"C3", "", true, none⟩) :=
  ⟨rfl, rfl, by decide, rfl⟩

/-! ## Claim C9 -/

/-- C9 counterexample: with one spreadsheet selected in the tree but no
cells selected in its view, BOTH strategies produce zero entries, yet
`main` reports no `NoSelection` message box — and still requests a
recompute.  The claim's "NoSelection exactly when zero entries" fails. -/
theorem c9_counterexample :
    strategy1Entries hostSheetNoCells = [] ∧
    fallbackEntries hostSheetNoCells = [] ∧
    (mainRun hostSheetNoCells).noSelection = false ∧
    (mainRun hostSheetNoCells).recompute = true ∧
    (mainRun hostSheetNoCells).attempts = [] := by decide

/-- C9 (amended): the `NoSelection` message box is shown exactly when
cell-level resolution yields nothing AND no selected object resolves to a
spreadsheet — not when zero entries are produced (a selected sheet with no
view-selected cells yields zero entries, no `NoSelection`, and a
recompute).  And whenever at least one entry is produced whose labels all
decode, no `NoSelection` is reported and a recompute is requested after
processing. -/
theorem c9_selection_reporting (h : Host) :
    ((mainRun h).noSelection = true ↔
      (iter_selected_spreadsheet_cells h.selEx = [] ∧
        getSpreadsheets h.sel = []))
    ∧ (producedEntries h ≠ [] →
        (∀ e ∈ producedEntries h, (a1_to_rowcol e.2).isSome = true) →
        (mainRun h).noSelection = false ∧ (mainRun h).recompute = true) := by
  constructor
  · by_cases h1 : (iter_selected_spreadsheet_cells h.selEx).isEmpty = true
    · by_cases h2 : (getSpreadsheets h.sel).isEmpty = true
      · simp [mainRun, h1, h2, List.isEmpty_iff.mp h1, List.isEmpty_iff.mp h2]
      · simp only [mainRun, h1, if_true, h2, if_false]
        simp only [List.isEmpty_iff] at h1 h2
        simp [h1, h2]
    · simp only [mainRun, h1, if_false]
      simp only [List.isEmpty_iff] at h1
      simp [h1]
  · intro hne hdec
    by_cases h1 : (iter_selected_spreadsheet_cells h.selEx).isEmpty = true
    · have hs1 : strategy1Entries h = [] := by
        simp [strategy1Entries, List.isEmpty_iff.mp h1]
      have hpe : producedEntries h = fallbackEntries h := by
        rw [producedEntries, if_pos hs1]
      have hfb : fallbackEntries h ≠ [] := hpe ▸ hne
      have h2 : ¬(getSpreadsheets h.sel).isEmpty = true := by
        intro h2
        apply hfb
        simp [fallbackEntries, List.isEmpty_iff.mp h2]
      have hpr := processAll_eq h (fallbackEntries h) (by rw [← hpe]; exact hdec)
      simp [mainRun, h1, h2, hpr]
    · have hpe : producedEntries h = strategy1Entries h := by
        rw [producedEntries,
          if_neg (by simp [strategy1Entries, List.isEmpty_iff] at h1 ⊢; exact h1)]
      have hpr := processAll_eq h (strategy1Entries h) (by rw [← hpe]; exact hdec)
      simp [mainRun, h1, hpr]

theorem c9_selection_witness :
    (mainRun hostCellB3).noSelection = false ∧
    (mainRun hostCellB3).recompute = true :=
  (c9_selection_reporting hostCellB3).2 (by decide) (by decide)
